import Mathlib

/-
Shallow embedding of the ntt360/validator engine (validator.go).

Go maps are rendered as association lists whose list order stands for one
fixed iteration order of the map; Go's unordered iteration is thereby
resolved to a deterministic order, as the design notes themselves suggest.
A Go `[]string` value can be the nil slice or a real (possibly empty)
slice; both are observable in the source (`rule != nil` in isVerifiable),
so data values are modelled as `Option (List String)` with `none` for the
nil slice.  Go panics are modelled as the `.error` branch of `Except`.
The rule predicates live in a separate package that is treated as an
opaque registry, so the engine is parameterised by a `Registry` function;
the fixed table `validateMap` contributes only its key set here.
-/

namespace validator

/-- A Go `[]string`: `none` is the nil slice, `some l` a non-nil slice. -/
abbrev GoSlice := Option (List String)

/-- The data under validation, `map[string][]string` as an assoc list. -/
abbrev Data := List (String × GoSlice)

/-- Canonical rules, `map[string][]string` as an assoc list. -/
abbrev Rules := List (String × List String)

/-- Dispatch into the rule registry: the registry key (already
first-letter-uppercased), the field's values and the parameter. -/
abbrev Registry := String → GoSlice → String → Bool

/-- The key set of `validateMap` (the registered predicate names). -/
def validateNames : List String :=
  ["Required", "Min", "Max", "Regex", "Int", "Numeric", "Nullable",
   "Email", "Url", "Mobile", "In", "Lt", "Lte", "Gt", "Gte"]

/-- One field's error report (`ValidError`). -/
structure ValidError where
  field : String
  errors : List (String × String)
deriving DecidableEq

/-- The engine state (`Validator`). -/
structure Validator where
  data : Data
  rules : Rules
  customMsg : List (String × List (String × String))
  validErrors : List ValidError
deriving DecidableEq

/-- Assoc-list read, `m[k]` with presence flag. -/
def aGet? {α : Type} : List (String × α) → String → Option α
  | [], _ => none
  | (k₀, v₀) :: t, k => if k₀ = k then some v₀ else aGet? t k

/-- Assoc-list write, `m[k] = val` (first occurrence updated, else appended). -/
def aSet {α : Type} : List (String × α) → String → α → List (String × α)
  | [], k, val => [(k, val)]
  | (k₀, v₀) :: t, k, val =>
      if k₀ = k then (k₀, val) :: t else (k₀, v₀) :: aSet t k val

/-- `inArray`: linear membership scan over a string slice. -/
def inArray (arr : List String) (elem : String) : Bool :=
  arr.any (fun val => elem == val)

/-- The message of the runtime panic raised by slicing an empty string. -/
def sliceOutOfRangeMsg : String :=
  "runtime error: slice bounds out of range"

/-- `ucfirst`: uppercase the first character, keep the rest.  On the empty
string the Go code slices `str[0:1]` out of range and panics. -/
def ucfirst (str : String) : Except String String :=
  match str.toList with
  | [] => .error sliceOutOfRangeMsg
  | c :: cs => .ok (String.mk (Char.toUpper c :: cs))

/-- `strings.Split` with a one-character separator, on character lists. -/
def goSplit (sep : Char) : List Char → List (List Char)
  | [] => [[]]
  | c :: cs =>
      if c = sep then [] :: goSplit sep cs
      else
        match goSplit sep cs with
        | [] => [[c]]
        | h :: t => (c :: h) :: t

/-- `strings.Split` on strings (the engine only splits on `:`, `|`, `.`). -/
def goSplitS (sep : Char) (s : String) : List String :=
  (goSplit sep s.toList).map String.mk

/-- `strings.Contains` for a one-character needle. -/
def goContains (c : Char) (s : String) : Bool :=
  s.toList.contains c

/-- The dynamically shaped `rules` argument of `New`: its runtime type is
one of the three accepted map types, or anything else (`badType`). -/
inductive GoVal where
  | str : String → GoVal
  | strList : List String → GoVal
  | other : GoVal
deriving DecidableEq

inductive RulesInput where
  | strMap : List (String × String) → RulesInput
  | listMap : Rules → RulesInput
  | ifaceMap : List (String × GoVal) → RulesInput
  | badType : RulesInput
deriving DecidableEq

/-- The `map[string]interface{}` loop of `formatRules`: a string value is
pipe-split, a `[]string` value is kept, any other value is skipped. -/
def formatIface : List (String × GoVal) → Rules
  | [] => []
  | (k, .str s) :: rest => (k, goSplitS '|' s) :: formatIface rest
  | (k, .strList l) :: rest => (k, l) :: formatIface rest
  | (_, .other) :: rest => formatIface rest

/-- `formatRules`: normalise the rules argument, panicking on an
unsupported runtime type. -/
def formatRules : RulesInput → Except String Rules
  | .strMap m => .ok (m.map (fun p => (p.1, goSplitS '|' p.2)))
  | .listMap m => .ok m
  | .ifaceMap m => .ok (formatIface m)
  | .badType => .error "the rules only support map[string][]string or map[string]string"

/-- `insertError`'s update of the `ValidErrors` slice: the linear search of
`existError` fused with the in-place update, appending when absent. -/
def insertErrList (key field msg : String) : List ValidError → List ValidError
  | [] => [⟨field, [(key, msg)]⟩]
  | e :: rest =>
      if e.field = field then { e with errors := aSet e.errors key msg } :: rest
      else e :: insertErrList key field msg rest

/-- `insertError` (the trailing `rule` argument is unused in the source). -/
def insertError (v : Validator) (key field msg _rule : String) : Validator :=
  { v with validErrors := insertErrList key field msg v.validErrors }

/-- `existError` rendered as a query: the first entry for a field. -/
def findErr (v : Validator) (field : String) : Option ValidError :=
  v.validErrors.find? (fun e => e.field == field)

/-- `notExistCustomInsert`: record the generated default message. -/
def notExistCustomInsert (v : Validator) (field rule : String) : Validator :=
  insertError v rule field ("the field " ++ field ++ " not valid in " ++ rule) rule

/-- `addErrors`: record a rule failure, consulting the custom messages. -/
def addErrors (v : Validator) (field rule : String) (_value : GoSlice) : Validator :=
  match aGet? v.customMsg field with
  | some customMsg =>
      let v1 :=
        match aGet? customMsg "def" with
        | some msg => insertError v "def" field msg rule
        | none => v
      match aGet? customMsg rule with
      | some fieldMsg => insertError v1 rule field fieldMsg rule
      | none => notExistCustomInsert v1 field rule
  | none => notExistCustomInsert v field rule

/-- `isVerifiable`: the nullable-skip decision.  Note the nil-slice case:
a field present with a nil value falls through to `true`. -/
def isVerifiable (v : Validator) (key : String) (rules : List String) : Bool :=
  if inArray rules "nullable" then
    match aGet? v.data key with
    | none => false
    | some none => true
    | some (some l) => l.any (fun ruleItem => decide (0 < ruleItem.length))
  else true

/-- The rule-token split of `parse`: `flagIndex := strings.Split(rule, ":")`,
name `flagIndex[0]` and parameter `flagIndex[1]` when there is a colon. -/
def parseToken (rule : String) : String × String :=
  let flagIndex := goSplitS ':' rule
  if flagIndex.length > 1 then (flagIndex.headD rule, flagIndex.getD 1 "")
  else (rule, "")

/-- One iteration of `parse`'s loop body for a single rule token: split the
token, panic if the uppercased name is unregistered, then dispatch when the
field is verifiable, recording a failure on a `false` verdict. -/
def parseStep (reg : Registry) (key : String) (rules : List String)
    (v : Validator) (rule : String) : Except String Validator :=
  match ucfirst (parseToken rule).1 with
  | .error e => .error e
  | .ok u =>
      if validateNames.contains u = false then
        .error ((parseToken rule).1 ++ "the valid rule not exist")
      else if isVerifiable v key rules then
        if reg u ((aGet? v.data key).getD none) (parseToken rule).2 = false then
          .ok (addErrors v key (parseToken rule).1 ((aGet? v.data key).getD none))
        else .ok v
      else .ok v

/-- `parse`'s loop over the rule tokens (the whole token list is passed to
`isVerifiable` at every iteration, as in the source). -/
def parseLoop (reg : Registry) (key : String) (rules : List String) :
    Validator → List String → Except String Validator
  | v, [] => .ok v
  | v, rule :: rest =>
      match parseStep reg key rules v rule with
      | .error e => .error e
      | .ok v' => parseLoop reg key rules v' rest

/-- `parse`: evaluate every rule token of one field. -/
def parse (reg : Registry) (v : Validator) (key : String)
    (rules : List String) : Except String Validator :=
  parseLoop reg key rules v rules

/-- `run`'s loop over the rule specification. -/
def runLoop (reg : Registry) : Validator → Rules → Except String Validator
  | v, [] => .ok v
  | v, (key, item) :: rest =>
      match parse reg v key item with
      | .error e => .error e
      | .ok v' => runLoop reg v' rest

/-- `run`: evaluate all fields, then surface a single error. -/
def run (reg : Registry) (v : Validator) : Except String (Validator × Option String) :=
  match runLoop reg v v.rules with
  | .error e => .error e
  | .ok v' =>
      if v'.validErrors.isEmpty then .ok (v', none)
      else
        match aGet? (v'.validErrors.headD ⟨"", []⟩).errors "def" with
        | some val => .ok (v', some val)
        | none =>
            match (v'.validErrors.headD ⟨"", []⟩).errors with
            | (_, item) :: _ => .ok (v', some item)
            | [] => .ok (v', some "")

/-- `addMessage`: register one custom message under the rule name, or under
`"def"` when no rule name was given. -/
def cmInsert : List (String × List (String × String)) → String → String → String →
    List (String × List (String × String))
  | [], field, k, msg => [(field, [(k, msg)])]
  | (f₀, tbl) :: rest, field, k, msg =>
      if f₀ = field then (f₀, aSet tbl k msg) :: rest
      else (f₀, tbl) :: cmInsert rest field k msg

def addMessage (v : Validator) (field rule message : String) : Validator :=
  let k := if rule.length > 0 then rule else "def"
  { v with customMsg := cmInsert v.customMsg field k message }

/-- `parseMessage`'s loop over the override keys.  For a dotted key the
field is the first dot-segment and the rule the second; the map index
`validateMap[ucfirst(rule)]` is evaluated unconditionally, so an empty rule
segment panics inside `ucfirst` regardless of the data lookup. -/
def msgLoop : Validator → List (String × String) → Except String Validator
  | v, [] => .ok v
  | v, (key, item) :: rest =>
      if goContains '.' key then
        match ucfirst ((goSplitS '.' key).getD 1 "") with
        | .error e => .error e
        | .ok u =>
            if validateNames.contains u &&
                (aGet? v.data ((goSplitS '.' key).headD "")).isSome then
              msgLoop
                (addMessage v ((goSplitS '.' key).headD "")
                  ((goSplitS '.' key).getD 1 "") item) rest
            else msgLoop v rest
      else
        if (aGet? v.data key).isSome then msgLoop (addMessage v key "" item) rest
        else msgLoop v rest

def parseMessage (v : Validator) (message : List (String × String)) :
    Except String Validator :=
  if message.length = 0 then .ok v else msgLoop v message

/-- `missingCheck`'s loop: record a missing-field error for every field
that is absent from the data and not marked nullable. -/
def missingLoop (data : Data) : Validator → Rules → Validator
  | v, [] => v
  | v, (key, item) :: rest =>
      if (!(inArray item "nullable") && !(aGet? data key).isSome) = true then
        missingLoop data
          (insertError v "def" key ("the param " ++ key ++ " not valid!") "no") rest
      else missingLoop data v rest

/-- `missingCheck`: panics on an empty rule specification, otherwise
returns whether no missing-field error was recorded. -/
def missingCheck (v : Validator) (data : Data) (rules : Rules) :
    Except String (Validator × Bool) :=
  if rules.length = 0 then .error "验证规则不存在"
  else .ok (missingLoop data v rules, (missingLoop data v rules).validErrors.isEmpty)

/-- `New`: the public entry point. -/
def New (reg : Registry) (data : Data) (rules : RulesInput)
    (message : List (String × String)) : Except String (Validator × Option String) :=
  match formatRules rules with
  | .error e => .error e
  | .ok fmtRules =>
      match missingCheck ⟨data, fmtRules, [], []⟩ data fmtRules with
      | .error e => .error e
      | .ok (v, ok) =>
          if ok then
            match parseMessage v message with
            | .error e => .error e
            | .ok v2 => run reg v2
          else
            .ok (v, some ((aGet? (v.validErrors.headD ⟨"", []⟩).errors "def").getD
              "missing valid error"))

/-- A registry on which every predicate fails, and one on which every
predicate passes: used to observe whether a predicate was dispatched. -/
def regFalse : Registry := fun _ _ _ => false

def regTrue : Registry := fun _ _ _ => true

/-- The condition of `missingCheck`'s loop (line 362): not nullable and
absent from the data. -/
def missingCond (data : Data) (kv : String × List String) : Bool :=
  !(inArray kv.2 "nullable") && !(aGet? data kv.1).isSome

/-- A rule token whose name survives `ucfirst` and is a registered key. -/
def tokenResolves (t : String) : Bool :=
  match ucfirst (parseToken t).1 with
  | .ok u => validateNames.contains u
  | .error _ => false

instance {ε α : Type} [DecidableEq ε] [DecidableEq α] : DecidableEq (Except ε α) :=
  fun a b =>
    match a, b with
    | .ok x, .ok y => if h : x = y then isTrue (by rw [h]) else isFalse (by simp [h])
    | .error x, .error y => if h : x = y then isTrue (by rw [h]) else isFalse (by simp [h])
    | .ok _, .error _ => isFalse (by simp)
    | .error _, .ok _ => isFalse (by simp)

/-! ### Association-list lemmas -/

theorem aGet?_aSet_self {α : Type} (m : List (String × α)) (k : String) (val : α) :
    aGet? (aSet m k val) k = some val := by
  induction m with
  | nil => simp [aSet, aGet?]
  | cons p t ih =>
      by_cases h : p.1 = k
      · simp [aSet, aGet?, h]
      · simpa [aSet, aGet?, h] using ih

theorem aGet?_aSet_ne {α : Type} (m : List (String × α)) (k k' : String) (val : α)
    (h : k' ≠ k) : aGet? (aSet m k val) k' = aGet? m k' := by
  induction m with
  | nil => simp [aSet, aGet?, Ne.symm h]
  | cons p t ih =>
      obtain ⟨k₀, v₀⟩ := p
      by_cases hp : k₀ = k
      · subst hp
        simp [aSet, aGet?, Ne.symm h]
      · by_cases hp' : k₀ = k'
        · simp [aSet, aGet?, hp, hp', h]
        · simp [aSet, aGet?, hp, hp', ih]

/-! ### `insertErrList` lemmas -/

theorem insertErrList_fresh (k f m : String) :
    ∀ l : List ValidError, (∀ e ∈ l, e.field ≠ f) →
      insertErrList k f m l = l ++ [⟨f, [(k, m)]⟩] := by
  intro l
  induction l with
  | nil => intro _; rfl
  | cons e rest ih =>
      intro h
      have he : e.field ≠ f := h e (List.mem_cons_self e rest)
      simp only [insertErrList, if_neg he, List.cons_append]
      rw [ih (fun e' he' => h e' (List.mem_cons_of_mem e he'))]

/-- The first entry for a field after `insertErrList`. -/
def findErrList : List ValidError → String → Option ValidError
  | [], _ => none
  | e :: rest, field => if e.field = field then some e else findErrList rest field

theorem findErrList_insertErrList (k f m : String) :
    ∀ l : List ValidError,
      findErrList (insertErrList k f m l) f =
        some (match findErrList l f with
              | some e => ⟨e.field, aSet e.errors k m⟩
              | none => ⟨f, [(k, m)]⟩) := by
  intro l
  induction l with
  | nil => simp [insertErrList, findErrList]
  | cons e rest ih =>
      by_cases h : e.field = f
      · simp [insertErrList, findErrList, h]
      · simp [insertErrList, findErrList, h, ih]

theorem field_insertErrList_fresh (k f m : String) (l : List ValidError)
    (h : ∀ e ∈ l, e.field ≠ f) :
    (insertErrList k f m l).map ValidError.field = l.map ValidError.field ++ [f] := by
  rw [insertErrList_fresh k f m l h]
  simp

theorem field_insertErrList_mem (k f m : String) :
    ∀ l : List ValidError, (∃ e ∈ l, e.field = f) →
      (insertErrList k f m l).map ValidError.field = l.map ValidError.field := by
  intro l
  induction l with
  | nil => rintro ⟨e, he, -⟩; exact absurd he (List.not_mem_nil e)
  | cons e rest ih =>
      rintro ⟨e', he', hf⟩
      by_cases h : e.field = f
      · simp [insertErrList, h]
      · rcases List.mem_cons.mp he' with rfl | hmem
        · exact absurd hf h
        · simp only [insertErrList, if_neg h, List.map_cons]
          rw [ih ⟨e', hmem, hf⟩]

theorem nodup_insertErrList (k f m : String) (l : List ValidError)
    (h : (l.map ValidError.field).Nodup) :
    ((insertErrList k f m l).map ValidError.field).Nodup := by
  by_cases hex : ∃ e ∈ l, e.field = f
  · rw [field_insertErrList_mem k f m l hex]; exact h
  · push_neg at hex
    rw [field_insertErrList_fresh k f m l hex]
    have hf : f ∉ l.map ValidError.field := by
      intro hmem
      rcases List.mem_map.mp hmem with ⟨e, he, hfe⟩
      exact hex e he hfe
    rw [← List.concat_eq_append]
    exact List.Nodup.concat hf h

/-! ### `goSplit` and string lemmas -/

theorem goSplit_ne_nil (sep : Char) : ∀ l : List Char, goSplit sep l ≠ [] := by
  intro l
  cases l with
  | nil => simp [goSplit]
  | cons c cs =>
      by_cases h : c = sep
      · simp [goSplit, h]
      · simp only [goSplit, if_neg h]
        cases goSplit sep cs <;> simp

theorem goSplit_not_mem (sep : Char) :
    ∀ l : List Char, sep ∉ l → goSplit sep l = [l] := by
  intro l
  induction l with
  | nil => intro _; rfl
  | cons c cs ih =>
      intro h
      have hc : ¬c = sep := fun hc => h (hc ▸ List.mem_cons_self c cs)
      have hcs : sep ∉ cs := fun hm => h (List.mem_cons_of_mem c hm)
      simp only [goSplit, if_neg hc, ih hcs]

theorem goSplit_append (sep : Char) :
    ∀ a b : List Char, sep ∉ a →
      goSplit sep (a ++ sep :: b) = a :: goSplit sep b := by
  intro a
  induction a with
  | nil => intro b _; simp [goSplit]
  | cons c a' ih =>
      intro b h
      have hc : ¬c = sep := fun hc => h (hc ▸ List.mem_cons_self c a')
      have ha : sep ∉ a' := fun hm => h (List.mem_cons_of_mem c hm)
      simp only [List.cons_append, goSplit, if_neg hc, List.append_eq, ih b ha]

theorem string_toList_append (a b : String) :
    (a ++ b).toList = a.toList ++ b.toList := by
  cases a; cases b; rfl

theorem string_mk_toList (s : String) : String.mk s.toList = s := rfl

theorem string_toList_ne_nil (s : String) (h : s ≠ "") : s.toList ≠ [] := by
  intro hl
  apply h
  have := string_mk_toList s
  rw [hl] at this
  exact this.symm

/-! ### `missingLoop` characterization -/

/-- The error entry `missingCheck` records for a missing field. -/
def missingEntry (key : String) : ValidError :=
  ⟨key, [("def", "the param " ++ key ++ " not valid!")]⟩

theorem missingLoop_cond (data : Data) (v : Validator) (key : String)
    (item : List String) (rest : Rules) :
    missingLoop data v ((key, item) :: rest) =
      if missingCond data (key, item) then
        missingLoop data
          (insertError v "def" key ("the param " ++ key ++ " not valid!") "no") rest
      else missingLoop data v rest := rfl

theorem missingLoop_validErrors (data : Data) :
    ∀ (rs : Rules) (v : Validator),
      (rs.map Prod.fst).Nodup →
      (∀ kv ∈ rs, missingCond data kv = true → ∀ e ∈ v.validErrors, e.field ≠ kv.1) →
      missingLoop data v rs =
        { v with validErrors :=
            v.validErrors ++ (rs.filter (missingCond data)).map (fun kv => missingEntry kv.1) } := by
  intro rs
  induction rs with
  | nil => intro v _ _; simp [missingLoop]
  | cons kv rest ih =>
      intro v hnd hfresh
      obtain ⟨key, item⟩ := kv
      have hnd' : (rest.map Prod.fst).Nodup := (List.nodup_cons.mp hnd).2
      have hkey : key ∉ rest.map Prod.fst := (List.nodup_cons.mp hnd).1
      rw [missingLoop_cond]
      by_cases hc : missingCond data (key, item) = true
      · rw [if_pos hc]
        have hfr : ∀ e ∈ v.validErrors, e.field ≠ key :=
          hfresh (key, item) (List.mem_cons_self _ _) hc
        have hins : insertError v "def" key ("the param " ++ key ++ " not valid!") "no" =
            { v with validErrors := v.validErrors ++ [missingEntry key] } := by
          simp only [insertError, missingEntry]
          rw [insertErrList_fresh _ _ _ _ hfr]
        rw [hins, ih _ hnd']
        · simp [List.filter_cons, hc, missingEntry]
        · intro kv' hkv' hc' e he
          rcases List.mem_append.mp he with hold | hnew
          · exact hfresh kv' (List.mem_cons_of_mem _ hkv') hc' e hold
          · have heq : e = missingEntry key := by simpa using hnew
            rw [heq]
            intro hfe
            have hk : kv'.1 = key := hfe.symm
            exact hkey (hk ▸ List.mem_map.mpr ⟨kv', hkv', rfl⟩)
      · rw [if_neg hc]
        have hcf : missingCond data (key, item) = false := by
          cases h : missingCond data (key, item)
          · rfl
          · exact absurd h hc
        rw [ih _ hnd']
        · simp [List.filter_cons, hcf]
        · intro kv' hkv' hc' e he
          exact hfresh kv' (List.mem_cons_of_mem _ hkv') hc' e he

theorem missingLoop_nochange (data : Data) :
    ∀ (rs : Rules) (v : Validator),
      (∀ kv ∈ rs, missingCond data kv = false) →
      missingLoop data v rs = v := by
  intro rs
  induction rs with
  | nil => intro v _; rfl
  | cons kv rest ih =>
      intro v h
      obtain ⟨key, item⟩ := kv
      rw [missingLoop_cond]
      rw [if_neg (by rw [h (key, item) (List.mem_cons_self _ _)]; simp)]
      exact ih v (fun kv' hkv' => h kv' (List.mem_cons_of_mem _ hkv'))

/-! ### `parse` lemmas -/

theorem isVerifiable_false (v : Validator) (key : String) (ts : List String)
    (hn : inArray ts "nullable" = true)
    (h : aGet? v.data key = none ∨
         ∃ l, aGet? v.data key = some (some l) ∧ ∀ s ∈ l, s.length = 0) :
    isVerifiable v key ts = false := by
  unfold isVerifiable
  rw [hn]
  rcases h with hnone | ⟨l, hl, hall⟩
  · simp [hnone]
  · simp only [hl, if_true]
    simp only [List.any_eq_false, decide_eq_true_eq]
    intro s hs
    rw [hall s hs]
    simp

theorem parseStep_skip (reg : Registry) (key : String) (rules : List String)
    (v : Validator) (t : String) (hv : isVerifiable v key rules = false)
    (hr : tokenResolves t = true) : parseStep reg key rules v t = .ok v := by
  unfold tokenResolves at hr
  unfold parseStep
  cases hu : ucfirst (parseToken t).1 with
  | error e => rw [hu] at hr; exact absurd hr (by simp)
  | ok u =>
      rw [hu] at hr
      simp only at hr
      have hm : u ∈ validateNames := by simpa using hr
      simp [hr, hm, hv]

theorem parseStep_pass (reg : Registry) (key : String) (rules : List String)
    (v : Validator) (t : String)
    (hr : tokenResolves t = true)
    (hp : ∀ u value param, reg u value param = true) :
    parseStep reg key rules v t = .ok v := by
  unfold tokenResolves at hr
  unfold parseStep
  cases hu : ucfirst (parseToken t).1 with
  | error e => rw [hu] at hr; exact absurd hr (by simp)
  | ok u =>
      rw [hu] at hr
      simp only at hr
      have hm : u ∈ validateNames := by simpa using hr
      simp [hr, hm, hp]

theorem parseLoop_skip (reg : Registry) (key : String) (rules : List String) :
    ∀ (l : List String) (v : Validator), isVerifiable v key rules = false →
      (∀ t ∈ l, tokenResolves t = true) → parseLoop reg key rules v l = .ok v := by
  intro l
  induction l with
  | nil => intro v _ _; rfl
  | cons t rest ih =>
      intro v hv hr
      unfold parseLoop
      rw [parseStep_skip reg key rules v t hv (hr t (List.mem_cons_self _ _))]
      exact ih v hv (fun t' ht' => hr t' (List.mem_cons_of_mem _ ht'))

theorem parseLoop_pass (reg : Registry) (key : String) (rules : List String)
    (hp : ∀ u value param, reg u value param = true) :
    ∀ (l : List String) (v : Validator),
      (∀ t ∈ l, tokenResolves t = true) → parseLoop reg key rules v l = .ok v := by
  intro l
  induction l with
  | nil => intro v _; rfl
  | cons t rest ih =>
      intro v hr
      unfold parseLoop
      rw [parseStep_pass reg key rules v t (hr t (List.mem_cons_self _ _)) hp]
      exact ih v (fun t' ht' => hr t' (List.mem_cons_of_mem _ ht'))

theorem parseStep_ok_resolves (reg : Registry) (key : String) (rules : List String)
    (v v' : Validator) (t : String) (h : parseStep reg key rules v t = .ok v') :
    tokenResolves t = true := by
  unfold tokenResolves
  unfold parseStep at h
  cases hu : ucfirst (parseToken t).1 with
  | error e => rw [hu] at h; exact absurd h (by simp)
  | ok u =>
      rw [hu] at h
      cases hc : validateNames.contains u with
      | false =>
          have hm : u ∉ validateNames := by simpa using hc
          simp [hm] at h
      | true => simpa using hc

theorem parseLoop_ok_resolves (reg : Registry) (key : String) (rules : List String) :
    ∀ (l : List String) (v v' : Validator),
      parseLoop reg key rules v l = .ok v' → ∀ t ∈ l, tokenResolves t = true := by
  intro l
  induction l with
  | nil => intro v v' _ t ht; exact absurd ht (List.not_mem_nil t)
  | cons t₀ rest ih =>
      intro v v' h t ht
      unfold parseLoop at h
      cases hs : parseStep reg key rules v t₀ with
      | error e => rw [hs] at h; exact absurd h (by simp)
      | ok v1 =>
          rw [hs] at h
          rcases List.mem_cons.mp ht with rfl | hmem
          · exact parseStep_ok_resolves reg key rules v v1 t hs
          · exact ih v1 v' h t hmem

/-- The per-field deduplication invariant on the error report. -/
def nodupF (v : Validator) : Prop :=
  (v.validErrors.map ValidError.field).Nodup

theorem nodupF_insertError (v : Validator) (key field msg rule : String)
    (h : nodupF v) : nodupF (insertError v key field msg rule) :=
  nodup_insertErrList key field msg v.validErrors h

theorem nodupF_addErrors (v : Validator) (field rule : String) (value : GoSlice)
    (h : nodupF v) : nodupF (addErrors v field rule value) := by
  cases h1 : aGet? v.customMsg field with
  | none =>
      simp only [addErrors, h1, notExistCustomInsert]
      exact nodupF_insertError _ _ _ _ _ h
  | some customMsg =>
      cases h2 : aGet? customMsg "def" with
      | none =>
          cases h3 : aGet? customMsg rule with
          | none =>
              simp only [addErrors, h1, h2, h3, notExistCustomInsert]
              exact nodupF_insertError _ _ _ _ _ h
          | some m =>
              simp only [addErrors, h1, h2, h3]
              exact nodupF_insertError _ _ _ _ _ h
      | some m =>
          cases h3 : aGet? customMsg rule with
          | none =>
              simp only [addErrors, h1, h2, h3, notExistCustomInsert]
              exact nodupF_insertError _ _ _ _ _ (nodupF_insertError _ _ _ _ _ h)
          | some m2 =>
              simp only [addErrors, h1, h2, h3]
              exact nodupF_insertError _ _ _ _ _ (nodupF_insertError _ _ _ _ _ h)

/-! ### `runLoop` lemmas -/

theorem runLoop_pass (reg : Registry) (hp : ∀ u value param, reg u value param = true) :
    ∀ (rs : Rules) (v : Validator),
      (∀ kv ∈ rs, ∀ t ∈ kv.2, tokenResolves t = true) → runLoop reg v rs = .ok v := by
  intro rs
  induction rs with
  | nil => intro v _; rfl
  | cons kv rest ih =>
      intro v h
      obtain ⟨key, item⟩ := kv
      unfold runLoop parse
      rw [parseLoop_pass reg key item hp item v (h (key, item) (List.mem_cons_self _ _))]
      exact ih v (fun kv' hkv' => h kv' (List.mem_cons_of_mem _ hkv'))

/-! ### `msgLoop` / `addMessage` lemmas -/

theorem addMessage_validErrors (v : Validator) (field rule message : String) :
    (addMessage v field rule message).validErrors = v.validErrors := rfl

theorem msgLoop_validErrors :
    ∀ (m : List (String × String)) (v v' : Validator),
      msgLoop v m = .ok v' → v'.validErrors = v.validErrors := by
  intro m
  induction m with
  | nil => intro v v' h; cases h; rfl
  | cons kv rest ih =>
      intro v v' h
      obtain ⟨key, item⟩ := kv
      unfold msgLoop at h
      by_cases hdot : goContains '.' key
      · rw [if_pos hdot] at h
        cases hu : ucfirst ((goSplitS '.' key).getD 1 "") with
        | error e => rw [hu] at h; simp at h
        | ok u =>
            rw [hu] at h
            simp only at h
            split at h
            · rw [ih _ _ h, addMessage_validErrors]
            · exact ih _ _ h
      · rw [if_neg hdot] at h
        split at h
        · rw [ih _ _ h, addMessage_validErrors]
        · exact ih _ _ h

theorem parseMessage_validErrors (v v' : Validator) (m : List (String × String))
    (h : parseMessage v m = .ok v') : v'.validErrors = v.validErrors := by
  unfold parseMessage at h
  by_cases hz : m.length = 0
  · rw [if_pos hz] at h; cases h; rfl
  · rw [if_neg hz] at h; exact msgLoop_validErrors m v v' h

theorem aGet?_cmInsert_self (field k msg : String) :
    ∀ cm : List (String × List (String × String)),
      aGet? (cmInsert cm field k msg) field =
        some (match aGet? cm field with
              | some tbl => aSet tbl k msg
              | none => [(k, msg)]) := by
  intro cm
  induction cm with
  | nil => simp [cmInsert, aGet?]
  | cons p rest ih =>
      obtain ⟨f₀, tbl₀⟩ := p
      by_cases h : f₀ = field
      · simp [cmInsert, aGet?, h]
      · simp [cmInsert, aGet?, h, ih]

theorem tokenResolves_iff (t : String) :
    tokenResolves t = true ↔
      ∃ u, ucfirst (parseToken t).1 = .ok u ∧ validateNames.contains u = true := by
  cases hu : ucfirst (parseToken t).1 with
  | error e =>
      simp only [tokenResolves, hu]
      constructor
      · intro h; exact absurd h (by decide)
      · rintro ⟨u, hu', -⟩
        exact absurd hu' (by simp)
  | ok u =>
      simp only [tokenResolves, hu]
      constructor
      · intro h; exact ⟨u, rfl, h⟩
      · rintro ⟨u', hu', hc⟩
        rw [Except.ok.inj hu']
        exact hc

theorem parseStep_isOk (reg : Registry) (key : String) (rules : List String)
    (v : Validator) (t : String) (hr : tokenResolves t = true) :
    ∃ v1, parseStep reg key rules v t = .ok v1 := by
  unfold tokenResolves at hr
  unfold parseStep
  cases hu : ucfirst (parseToken t).1 with
  | error e => rw [hu] at hr; exact absurd hr (by simp)
  | ok u =>
      rw [hu] at hr
      simp only at hr
      have hm : u ∈ validateNames := by simpa using hr
      simp only [hr, hm]
      cases hv : isVerifiable v key rules with
      | false => simp [hv]
      | true =>
          cases hb : reg u ((aGet? v.data key).getD none) (parseToken t).2 <;>
            simp [hv, hb]

theorem find?_eq_some_filter {α : Type} (p : α → Bool) :
    ∀ (l : List α) (a : α), l.find? p = some a → ∃ t, l.filter p = a :: t := by
  intro l
  induction l with
  | nil => intro a h; exact absurd h (by simp)
  | cons x rest ih =>
      intro a h
      cases hp : p x with
      | true =>
          rw [List.find?_cons_of_pos _ hp] at h
          cases h
          exact ⟨rest.filter p, by simp [List.filter_cons, hp]⟩
      | false =>
          rw [List.find?_cons_of_neg _ (by simp [hp])] at h
          obtain ⟨t, ht⟩ := ih a h
          exact ⟨t, by simp [List.filter_cons, hp, ht]⟩

/-! ### Claims -/

/-- C5 (counterexample): the claim says the parameter of a rule token is
the entire remainder after the first colon, so `"in:a:b"` would yield
parameter `"a:b"`; the source takes `flagIndex[1]`, the segment between
the first and the second colon, which is `"a"`. -/
theorem param_second_segment_counterexample :
    parseToken "in:a:b" = ("in", "a") ∧ (parseToken "in:a:b").2 ≠ "a:b" :=
  ⟨rfl, by decide⟩

/-- C5 (amended): for a token `name:param` the rule name is the substring
before the first colon and the parameter is the segment between the first
and the second colon (so further colons and everything after them are
dropped); a token without a colon is its own rule name with empty
parameter. -/
theorem parseToken_spec (name p q r : String)
    (hn : ':' ∉ name.toList) (hp : ':' ∉ p.toList) (hr : ':' ∉ r.toList) :
    parseToken (name ++ ":" ++ p) = (name, p) ∧
    parseToken (name ++ ":" ++ p ++ ":" ++ q) = (name, p) ∧
    parseToken r = (r, "") := by
  have hcolon : (":" : String).toList = [':'] := rfl
  refine ⟨?_, ?_, ?_⟩
  · have h1 : (name ++ ":" ++ p).toList = name.toList ++ ':' :: p.toList := by
      rw [string_toList_append, string_toList_append, hcolon]
      simp
    unfold parseToken goSplitS
    rw [h1, goSplit_append ':' name.toList p.toList hn, goSplit_not_mem ':' p.toList hp]
    simp [string_mk_toList, List.getD]
  · have h2 : (name ++ ":" ++ p ++ ":" ++ q).toList =
        name.toList ++ ':' :: (p.toList ++ ':' :: q.toList) := by
      rw [string_toList_append, string_toList_append, string_toList_append,
        string_toList_append, hcolon]
      simp
    unfold parseToken goSplitS
    rw [h2, goSplit_append ':' name.toList _ hn, goSplit_append ':' p.toList _ hp]
    simp [string_mk_toList, List.getD]
  · unfold parseToken goSplitS
    rw [goSplit_not_mem ':' r.toList hr]
    simp [string_mk_toList]

/-- C5 witness: the amended statement evaluated at `in:a`, `in:a:b`, `min`. -/
theorem parseToken_spec_witness :
    parseToken ("in" ++ ":" ++ "a") = ("in", "a") ∧
    parseToken ("in" ++ ":" ++ "a" ++ ":" ++ "b") = ("in", "a") ∧
    parseToken "min" = ("min", "") :=
  parseToken_spec "in" "a" "b" "min" (by decide) (by decide) (by decide)

/-- C7: the registry key is the rule name with only its first character
uppercased (`"min"` resolves via `"Min"`, `"mIN"` becomes `"MIN"` and
misses); a token evaluated to completion always resolved, and a head token
whose key is unregistered makes `parse` abort with the fatal
`"the valid rule not exist"` panic instead of recording a failure. -/
theorem registry_lookup_ucfirst :
    (ucfirst "min" = .ok "Min" ∧ validateNames.contains "Min" = true) ∧
    (ucfirst "mIN" = .ok "MIN" ∧ validateNames.contains "MIN" = false) ∧
    (∀ (reg : Registry) (v v' : Validator) (key : String) (ts : List String),
       parse reg v key ts = .ok v' →
       ∀ t ∈ ts, ∃ u, ucfirst (parseToken t).1 = .ok u ∧
         validateNames.contains u = true) ∧
    (∀ (reg : Registry) (v : Validator) (key t : String) (ts : List String)
       (u : String), ucfirst (parseToken t).1 = .ok u →
       validateNames.contains u = false →
       parse reg v key (t :: ts) = .error ((parseToken t).1 ++ "the valid rule not exist")) := by
  refine ⟨⟨rfl, rfl⟩, ⟨rfl, rfl⟩, ?_, ?_⟩
  · intro reg v v' key ts h t ht
    exact (tokenResolves_iff t).mp (parseLoop_ok_resolves reg key ts ts v v' h t ht)
  · intro reg v key t ts u hu hc
    have hm : u ∉ validateNames := by simpa using hc
    unfold parse parseLoop parseStep
    rw [hu]
    simp [hm]

/-- C7 witness: an unregistered uppercased key aborts the run. -/
theorem registry_lookup_ucfirst_witness :
    parse regTrue ⟨[], [], [], []⟩ "f" ["mIN"] = .error "mINthe valid rule not exist" :=
  registry_lookup_ucfirst.2.2.2 regTrue ⟨[], [], [], []⟩ "f" "mIN" [] "MIN" rfl rfl

/-- C9 (counterexample): a `map[string]interface{}` rules argument holding
a value that is neither a string nor a `[]string` is not one of the three
accepted shapes, yet `formatRules` does not abort: it silently drops the
entry and normalises the rest. -/
theorem iface_bad_value_dropped :
    formatRules (.ifaceMap [("f", .other), ("g", .str "min:1")]) =
      .ok [("g", ["min:1"])] := rfl

/-- `true` exactly on the interface values `formatRules` silently drops. -/
def goValIsOther : GoVal → Bool
  | .other => true
  | _ => false

/-- C9 (amended): the normaliser aborts exactly when the runtime type of
the rules argument is none of the three accepted map types; inside a
`map[string]interface{}` every entry whose value is neither a string nor a
token list is silently dropped, the rest are normalised in order. -/
theorem formatRules_spec :
    (∀ ri : RulesInput, (∃ e, formatRules ri = .error e) ↔ ri = .badType) ∧
    (∀ m : List (String × GoVal),
       (formatIface m).map Prod.fst =
         (m.filter (fun p => !(goValIsOther p.2))).map Prod.fst) ∧
    (∀ m : List (String × GoVal), formatRules (.ifaceMap m) = .ok (formatIface m)) := by
  refine ⟨?_, ?_, fun m => rfl⟩
  · intro ri
    constructor
    · rintro ⟨e, he⟩
      cases ri with
      | strMap m => exact absurd he (by simp [formatRules])
      | listMap m => exact absurd he (by simp [formatRules])
      | ifaceMap m => exact absurd he (by simp [formatRules])
      | badType => rfl
    · rintro rfl
      exact ⟨_, rfl⟩
  · intro m
    induction m with
    | nil => rfl
    | cons p rest ih =>
        obtain ⟨k, gv⟩ := p
        cases gv <;> simp [formatIface, goValIsOther, ih]

/-- C9 witness: the abort criterion evaluated at the unsupported shape. -/
theorem formatRules_spec_witness : ∃ e, formatRules .badType = .error e :=
  (formatRules_spec.1 .badType).mpr rfl

/-- C2 (counterexample): a field marked `nullable` that is present in the
data with a nil slice has a value list with no strings at all, so every
string in it vacuously has length zero — yet `isVerifiable` falls through
its `rule != nil` guard and returns true, the predicates are dispatched,
and errors are recorded for the field. -/
theorem nullable_nil_value_counterexample :
    New regFalse [("f", (none : GoSlice))] (.listMap [("f", ["nullable", "min:1"])]) [] =
      .ok (⟨[("f", none)], [("f", ["nullable", "min:1"])], [],
            [⟨"f", [("nullable", "the field f not valid in nullable"),
                    ("min", "the field f not valid in min")]⟩]⟩,
           some "the field f not valid in nullable") ∧
    inArray ["nullable", "min:1"] "nullable" = true ∧
    aGet? ([("f", (none : GoSlice))] : Data) "f" = some none ∧
    isVerifiable ⟨[("f", none)], [("f", ["nullable", "min:1"])], [], []⟩ "f"
      ["nullable", "min:1"] = true :=
  ⟨rfl, rfl, rfl, rfl⟩

/-- C2 (amended): for a field whose token list contains `"nullable"`, if
the field is absent from the data, or present with a non-nil value list in
which every string has length zero, then `parse` leaves the engine state
unchanged for every registry — no predicate is dispatched and no error is
recorded for the field (the tokens are assumed to resolve, otherwise the
whole run panics before reaching the skip decision). -/
theorem nullable_skip (reg : Registry) (v : Validator) (key : String)
    (ts : List String) (hn : inArray ts "nullable" = true)
    (hv : aGet? v.data key = none ∨
          ∃ l, aGet? v.data key = some (some l) ∧ ∀ s ∈ l, s.length = 0)
    (hr : ∀ t ∈ ts, tokenResolves t = true) :
    parse reg v key ts = .ok v :=
  parseLoop_skip reg key ts ts v (isVerifiable_false v key ts hn hv) hr

/-- C2 witness: a nullable field present with one empty string is skipped
even when every predicate would fail. -/
theorem nullable_skip_witness :
    parse regFalse ⟨[("age", some [""])], [("age", ["nullable", "min:1"])], [], []⟩
      "age" ["nullable", "min:1"] =
      .ok ⟨[("age", some [""])], [("age", ["nullable", "min:1"])], [], []⟩ :=
  nullable_skip regFalse ⟨[("age", some [""])], [("age", ["nullable", "min:1"])], [], []⟩
    "age" ["nullable", "min:1"] (by decide)
    (Or.inr ⟨[""], rfl, by decide⟩) (by decide)

/-- C3: when a field has a `"def"` override in its custom message table,
every rule failure on it records the override under key `"def"` and,
separately, an entry under the rule's own name — the rule-specific
override when registered, the generated default message otherwise — so
both keys coexist in the field's single error entry. -/
theorem def_override_both_keys (v : Validator) (field rule : String)
    (value : GoSlice) (tbl : List (String × String)) (msgd : String)
    (h1 : aGet? v.customMsg field = some tbl)
    (h2 : aGet? tbl "def" = some msgd)
    (h3 : rule ≠ "def") :
    ∃ e, findErrList (addErrors v field rule value).validErrors field = some e ∧
      aGet? e.errors "def" = some msgd ∧
      aGet? e.errors rule =
        some ((aGet? tbl rule).getD
          ("the field " ++ field ++ " not valid in " ++ rule)) := by
  have hd : ("def" : String) ≠ rule := Ne.symm h3
  cases hr : aGet? tbl rule with
  | some fieldMsg =>
      simp only [addErrors, h1, h2, hr, insertError]
      have e1 := findErrList_insertErrList "def" field msgd v.validErrors
      have e2 := findErrList_insertErrList rule field fieldMsg
        (insertErrList "def" field msgd v.validErrors)
      rw [e1] at e2
      simp only at e2
      cases hf : findErrList v.validErrors field with
      | some e0 =>
          rw [hf] at e2
          simp only at e2
          refine ⟨_, e2, ?_, ?_⟩
          · rw [aGet?_aSet_ne _ rule "def" fieldMsg hd, aGet?_aSet_self]
          · rw [aGet?_aSet_self]
            simp
      | none =>
          rw [hf] at e2
          simp only at e2
          refine ⟨_, e2, ?_, ?_⟩
          · rw [aGet?_aSet_ne _ rule "def" fieldMsg hd]
            simp [aGet?]
          · rw [aGet?_aSet_self]
            simp
  | none =>
      simp only [addErrors, h1, h2, hr, notExistCustomInsert, insertError]
      have e1 := findErrList_insertErrList "def" field msgd v.validErrors
      have e2 := findErrList_insertErrList rule field
        ("the field " ++ field ++ " not valid in " ++ rule)
        (insertErrList "def" field msgd v.validErrors)
      rw [e1] at e2
      simp only at e2
      cases hf : findErrList v.validErrors field with
      | some e0 =>
          rw [hf] at e2
          simp only at e2
          refine ⟨_, e2, ?_, ?_⟩
          · rw [aGet?_aSet_ne _ rule "def" _ hd, aGet?_aSet_self]
          · rw [aGet?_aSet_self]
            simp
      | none =>
          rw [hf] at e2
          simp only at e2
          refine ⟨_, e2, ?_, ?_⟩
          · rw [aGet?_aSet_ne _ rule "def" _ hd]
            simp [aGet?]
          · rw [aGet?_aSet_self]
            simp

/-- C3 witness: a field with both a `"def"` and a rule override records
both keys on a `min` failure. -/
theorem def_override_both_keys_witness :
    ∃ e, findErrList
        (addErrors ⟨[("age", some ["1"])], [("age", ["min:9"])],
            [("age", [("def", "dmsg"), ("min", "mmsg")])], []⟩
          "age" "min" (some ["1"])).validErrors "age" = some e ∧
      aGet? e.errors "def" = some "dmsg" ∧
      aGet? e.errors "min" =
        some ((aGet? [("def", "dmsg"), ("min", "mmsg")] "min").getD
          ("the field " ++ "age" ++ " not valid in " ++ "min")) :=
  def_override_both_keys
    ⟨[("age", some ["1"])], [("age", ["min:9"])],
      [("age", [("def", "dmsg"), ("min", "mmsg")])], []⟩
    "age" "min" (some ["1"]) [("def", "dmsg"), ("min", "mmsg")] "dmsg"
    rfl rfl (by decide)

theorem parseLoop_empty_token_not_ok (reg : Registry) (key : String)
    (allRules : List String) :
    ∀ (ts : List String) (v : Validator), "" ∈ ts →
      ∀ v', parseLoop reg key allRules v ts ≠ .ok v' := by
  intro ts
  induction ts with
  | nil => intro v h; exact absurd h (List.not_mem_nil "")
  | cons t rest ih =>
      intro v hmem v' h
      unfold parseLoop at h
      rcases List.mem_cons.mp hmem with heq | hmem'
      · rw [← heq] at h
        rw [show parseStep reg key allRules v "" = .error sliceOutOfRangeMsg from rfl] at h
        exact absurd h (by simp)
      · cases hs : parseStep reg key allRules v t with
        | error e => rw [hs] at h; exact absurd h (by simp)
        | ok v1 =>
            rw [hs] at h
            simp only at h
            exact ih v1 hmem' v' h

/-- C10: the engine is not total.  An empty rule token (as produced by a
doubled or trailing `|`) or a message key whose rule segment is empty
reaches `ucfirst` with an empty string, which slices out of range and
panics instead of returning a result or a configuration-error value. -/
theorem nontotal_empty_token :
    (∀ (reg : Registry) (key : String) (allRules : List String)
       (v : Validator) (ts : List String), "" ∈ ts →
       ∀ v', parseLoop reg key allRules v ts ≠ .ok v') ∧
    goSplitS '|' "min:1|" = ["min:1", ""] ∧
    (∀ reg : Registry,
       New reg [("f", some ["1"])] (.strMap [("f", "min:1|")]) [] =
         .error sliceOutOfRangeMsg) ∧
    (∀ (v : Validator) (item : String) (rest : List (String × String)),
       parseMessage v (("age.", item) :: rest) = .error sliceOutOfRangeMsg) := by
  refine ⟨?_, rfl, ?_, ?_⟩
  · intro reg key allRules v ts hmem v'
    exact parseLoop_empty_token_not_ok reg key allRules ts v hmem v'
  · intro reg
    have hNr : New reg [("f", some ["1"])] (.strMap [("f", "min:1|")]) [] =
        run reg ⟨[("f", some ["1"])], [("f", ["min:1", ""])], [], []⟩ := rfl
    rw [hNr]
    obtain ⟨v1, hv1⟩ := parseStep_isOk reg "f" ["min:1", ""]
      ⟨[("f", some ["1"])], [("f", ["min:1", ""])], [], []⟩ "min:1" (by decide)
    have hl : parseLoop reg "f" ["min:1", ""]
        ⟨[("f", some ["1"])], [("f", ["min:1", ""])], [], []⟩ ["min:1", ""] =
        .error sliceOutOfRangeMsg := by
      unfold parseLoop
      rw [hv1]
      simp only
      rfl
    unfold run runLoop parse
    rw [hl]
  · intro v item rest
    rfl

/-- `New` on an already-split rules map, unfolded past `formatRules`. -/
theorem New_listMap (reg : Registry) (data : Data) (rs : Rules)
    (message : List (String × String)) :
    New reg data (.listMap rs) message =
      match missingCheck ⟨data, rs, [], []⟩ data rs with
      | .error e => .error e
      | .ok (v, ok) =>
          if ok then
            match parseMessage v message with
            | .error e => .error e
            | .ok v2 => run reg v2
          else
            .ok (v, some ((aGet? (v.validErrors.headD ⟨"", []⟩).errors "def").getD
              "missing valid error")) := rfl

/-- C1: when at least one field of the rule specification is absent from
the data and not marked nullable, `New` records exactly one `"def"` entry
with message `"the param <field> not valid!"` per such field, runs no rule
evaluation for any field (the result does not depend on the registry or on
the message overrides), and surfaces the first-recorded missing-field
error. -/
theorem missing_fields_short_circuit (reg : Registry) (data : Data) (rs : Rules)
    (message : List (String × String)) (f₀ : String × List String)
    (hnd : (rs.map Prod.fst).Nodup)
    (hfind : rs.find? (missingCond data) = some f₀) :
    New reg data (.listMap rs) message =
      .ok ({ data := data, rules := rs, customMsg := [],
             validErrors := (rs.filter (missingCond data)).map
               (fun kv => missingEntry kv.1) },
           some ("the param " ++ f₀.1 ++ " not valid!")) := by
  have hne : rs ≠ [] := by rintro rfl; simp at hfind
  have hlen : ¬(rs.length = 0) := by simpa [List.length_eq_zero] using hne
  obtain ⟨t, hfil⟩ := find?_eq_some_filter (missingCond data) rs f₀ hfind
  have hml := missingLoop_validErrors data rs ⟨data, rs, [], []⟩ hnd
    (by intro kv _ _ e he; exact absurd he (List.not_mem_nil e))
  rw [New_listMap]
  unfold missingCheck
  rw [if_neg hlen, hml]
  simp only [List.nil_append, hfil, List.map_cons]
  rfl

/-- C1 witness: spec scenario 2, a required field absent from empty data. -/
theorem missing_fields_short_circuit_witness :
    New regTrue [] (.listMap [("name", ["required"])]) [] =
      .ok ({ data := [], rules := [("name", ["required"])], customMsg := [],
             validErrors := (([("name", ["required"])] : Rules).filter
               (missingCond [])).map (fun kv => missingEntry kv.1) },
           some ("the param " ++ "name" ++ " not valid!")) :=
  missing_fields_short_circuit regTrue [] [("name", ["required"])] []
    ("name", ["required"]) (by decide) (by decide)

theorem nodupF_missingLoop (data : Data) :
    ∀ (rs : Rules) (v : Validator), nodupF v → nodupF (missingLoop data v rs) := by
  intro rs
  induction rs with
  | nil => intro v h; exact h
  | cons kv rest ih =>
      intro v h
      obtain ⟨key, item⟩ := kv
      rw [missingLoop_cond]
      by_cases hc : missingCond data (key, item) = true
      · rw [if_pos hc]
        exact ih _ (nodupF_insertError _ _ _ _ _ h)
      · rw [if_neg hc]
        exact ih _ h

theorem nodupF_parseStep (reg : Registry) (key : String) (rules : List String)
    (v v' : Validator) (t : String) (h : parseStep reg key rules v t = .ok v')
    (hn : nodupF v) : nodupF v' := by
  unfold parseStep at h
  cases hu : ucfirst (parseToken t).1 with
  | error e => rw [hu] at h; exact absurd h (by simp)
  | ok u =>
      rw [hu] at h
      simp only at h
      split at h
      · exact absurd h (by simp)
      · split at h
        · split at h
          · rw [← Except.ok.inj h]
            exact nodupF_addErrors v key (parseToken t).1 _ hn
          · rw [← Except.ok.inj h]; exact hn
        · rw [← Except.ok.inj h]; exact hn

theorem nodupF_parseLoop (reg : Registry) (key : String) (rules : List String) :
    ∀ (l : List String) (v v' : Validator),
      parseLoop reg key rules v l = .ok v' → nodupF v → nodupF v' := by
  intro l
  induction l with
  | nil => intro v v' h hn; cases h; exact hn
  | cons t rest ih =>
      intro v v' h hn
      unfold parseLoop at h
      cases hs : parseStep reg key rules v t with
      | error e => rw [hs] at h; exact absurd h (by simp)
      | ok v1 =>
          rw [hs] at h
          simp only at h
          exact ih v1 v' h (nodupF_parseStep reg key rules v v1 t hs hn)

theorem nodupF_runLoop (reg : Registry) :
    ∀ (rs : Rules) (v v' : Validator),
      runLoop reg v rs = .ok v' → nodupF v → nodupF v' := by
  intro rs
  induction rs with
  | nil => intro v v' h hn; cases h; exact hn
  | cons kv rest ih =>
      intro v v' h hn
      obtain ⟨key, item⟩ := kv
      unfold runLoop parse at h
      cases hp : parseLoop reg key item v item with
      | error e => rw [hp] at h; exact absurd h (by simp)
      | ok v1 =>
          rw [hp] at h
          simp only at h
          exact ih v1 v' h (nodupF_parseLoop reg key item item v v1 hp hn)

/-- C4: whatever rules, data, registry and overrides a completed run was
given, the final error report holds at most one entry per field name:
multiple failures on a field go into one entry's key map, never into a
second entry. -/
theorem validErrors_nodup_fields (reg : Registry) (data : Data) (ri : RulesInput)
    (message : List (String × String)) (v : Validator) (e? : Option String)
    (h : New reg data ri message = .ok (v, e?)) :
    (v.validErrors.map ValidError.field).Nodup := by
  unfold New at h
  cases hf : formatRules ri with
  | error e => rw [hf] at h; exact absurd h (by simp)
  | ok rs =>
      rw [hf] at h
      simp only at h
      unfold missingCheck at h
      by_cases hz : rs.length = 0
      · rw [if_pos hz] at h; exact absurd h (by simp)
      · rw [if_neg hz] at h
        simp only at h
        have hm0 : nodupF (missingLoop data ⟨data, rs, [], []⟩ rs) :=
          nodupF_missingLoop data rs _ (by simp [nodupF])
        split at h
        · cases hp : parseMessage (missingLoop data ⟨data, rs, [], []⟩ rs) message with
          | error e => rw [hp] at h; exact absurd h (by simp)
          | ok v2 =>
              rw [hp] at h
              simp only at h
              have h2 : nodupF v2 := by
                unfold nodupF
                rw [parseMessage_validErrors _ _ _ hp]
                exact hm0
              unfold run at h
              cases hrl : runLoop reg v2 v2.rules with
              | error e => rw [hrl] at h; exact absurd h (by simp)
              | ok v3 =>
                  rw [hrl] at h
                  simp only at h
                  have h3 : nodupF v3 := nodupF_runLoop reg v2.rules v2 v3 hrl h2
                  split at h
                  · simp only [Except.ok.injEq, Prod.mk.injEq] at h
                    obtain ⟨rfl, -⟩ := h
                    exact h3
                  · cases hg : aGet? ((v3.validErrors.headD ⟨"", []⟩).errors) "def" with
                    | some val =>
                        rw [hg] at h
                        simp only [Except.ok.injEq, Prod.mk.injEq] at h
                        obtain ⟨rfl, -⟩ := h
                        exact h3
                    | none =>
                        rw [hg] at h
                        simp only at h
                        cases herr : (v3.validErrors.headD ⟨"", []⟩).errors with
                        | nil =>
                            rw [herr] at h
                            simp only [Except.ok.injEq, Prod.mk.injEq] at h
                            obtain ⟨rfl, -⟩ := h
                            exact h3
                        | cons p tl =>
                            rw [herr] at h
                            obtain ⟨kk, ii⟩ := p
                            simp only [Except.ok.injEq, Prod.mk.injEq] at h
                            obtain ⟨rfl, -⟩ := h
                            exact h3
        · simp only [Except.ok.injEq, Prod.mk.injEq] at h
          obtain ⟨rfl, -⟩ := h
          exact hm0

/-- C4 witness: a completed run with one failing rule. -/
theorem validErrors_nodup_fields_witness :
    ((Validator.mk [("hello", some ["2"])] [("hello", ["min:1"])] []
        [⟨"hello", [("min", "the field hello not valid in min")]⟩]).validErrors.map
      ValidError.field).Nodup :=
  validErrors_nodup_fields regFalse [("hello", some ["2"])]
    (.listMap [("hello", ["min:1"])]) []
    (Validator.mk [("hello", some ["2"])] [("hello", ["min:1"])] []
      [⟨"hello", [("min", "the field hello not valid in min")]⟩])
    (some "the field hello not valid in min") rfl

/-- C6: a completed run surfaces an error exactly when at least one error
entry was recorded; and an all-passing run — every field present or
nullable, every dispatched predicate true — returns the engine state with
an empty report and no error. -/
theorem error_iff_entries :
    (∀ (reg : Registry) (data : Data) (ri : RulesInput)
       (message : List (String × String)) (v : Validator) (e? : Option String),
       New reg data ri message = .ok (v, e?) →
       (e?.isSome = true ↔ v.validErrors ≠ [])) ∧
    (∀ (data : Data) (rs : Rules), rs ≠ [] →
       (∀ kv ∈ rs, (aGet? data kv.1).isSome = true ∨ inArray kv.2 "nullable" = true) →
       (∀ kv ∈ rs, ∀ t ∈ kv.2, tokenResolves t = true) →
       New (fun _ _ _ => true) data (.listMap rs) [] =
         .ok (⟨data, rs, [], []⟩, none)) := by
  constructor
  · intro reg data ri message v e? h
    unfold New at h
    cases hf : formatRules ri with
    | error e => rw [hf] at h; exact absurd h (by simp)
    | ok rs =>
        rw [hf] at h
        simp only at h
        unfold missingCheck at h
        by_cases hz : rs.length = 0
        · rw [if_pos hz] at h; exact absurd h (by simp)
        · rw [if_neg hz] at h
          simp only at h
          by_cases hemp : (missingLoop data ⟨data, rs, [], []⟩ rs).validErrors.isEmpty = true
          · rw [if_pos hemp] at h
            cases hp : parseMessage (missingLoop data ⟨data, rs, [], []⟩ rs) message with
            | error e => rw [hp] at h; exact absurd h (by simp)
            | ok v2 =>
                rw [hp] at h
                simp only at h
                unfold run at h
                cases hrl : runLoop reg v2 v2.rules with
                | error e => rw [hrl] at h; exact absurd h (by simp)
                | ok v3 =>
                    rw [hrl] at h
                    simp only at h
                    by_cases h3 : v3.validErrors.isEmpty = true
                    · rw [if_pos h3] at h
                      simp only [Except.ok.injEq, Prod.mk.injEq] at h
                      obtain ⟨rfl, he⟩ := h
                      rw [← he]
                      simp [List.isEmpty_iff.mp h3]
                    · rw [if_neg h3] at h
                      have hne : v3.validErrors ≠ [] := by
                        intro hnil
                        exact h3 (by simp [hnil])
                      cases hg : aGet? ((v3.validErrors.headD ⟨"", []⟩).errors) "def" with
                      | some val =>
                          rw [hg] at h
                          simp only [Except.ok.injEq, Prod.mk.injEq] at h
                          obtain ⟨rfl, he⟩ := h
                          rw [← he]
                          simp [hne]
                      | none =>
                          rw [hg] at h
                          simp only at h
                          cases herr : (v3.validErrors.headD ⟨"", []⟩).errors with
                          | nil =>
                              rw [herr] at h
                              simp only [Except.ok.injEq, Prod.mk.injEq] at h
                              obtain ⟨rfl, he⟩ := h
                              rw [← he]
                              simp [hne]
                          | cons p tl =>
                              rw [herr] at h
                              obtain ⟨kk, ii⟩ := p
                              simp only [Except.ok.injEq, Prod.mk.injEq] at h
                              obtain ⟨rfl, he⟩ := h
                              rw [← he]
                              simp [hne]
          · rw [if_neg hemp] at h
            simp only [Except.ok.injEq, Prod.mk.injEq] at h
            obtain ⟨hv, he⟩ := h
            have hne : (missingLoop data ⟨data, rs, [], []⟩ rs).validErrors ≠ [] := by
              intro hnil
              exact hemp (by simp [hnil])
            rw [← he, ← hv]
            simp [hne]
  · intro data rs hne h1 h3
    have hlen : ¬(rs.length = 0) := by simpa [List.length_eq_zero] using hne
    have hmc : ∀ kv ∈ rs, missingCond data kv = false := by
      intro kv hkv
      rcases h1 kv hkv with hs | hnul
      · simp [missingCond, hs]
      · simp [missingCond, hnul]
    have e1 : missingCheck ⟨data, rs, [], []⟩ data rs =
        .ok (⟨data, rs, [], []⟩, true) := by
      unfold missingCheck
      rw [if_neg hlen, missingLoop_nochange data rs _ hmc]
      rfl
    have e2 : runLoop (fun _ _ _ => true) (⟨data, rs, [], []⟩ : Validator) rs =
        .ok ⟨data, rs, [], []⟩ :=
      runLoop_pass _ (fun _ _ _ => rfl) rs _ h3
    have e3 : parseMessage (⟨data, rs, [], []⟩ : Validator) [] =
        .ok ⟨data, rs, [], []⟩ := rfl
    rw [New_listMap, e1]
    simp [run, e3, e2]

/-- C6 witness: spec scenario 1, an all-passing run. -/
theorem error_iff_entries_witness :
    New (fun _ _ _ => true) [("hello", some ["2"])]
      (.listMap [("hello", ["min:1"])]) [] =
      .ok (⟨[("hello", some ["2"])], [("hello", ["min:1"])], [], []⟩, none) :=
  error_iff_entries.2 [("hello", some ["2"])] [("hello", ["min:1"])]
    (by decide) (by decide) (by decide)

/-- C8 (counterexample): an override key whose rule part is empty — here
`"age."` — fails the registration conditions, but instead of being
silently ignored it panics inside `ucfirst` and aborts the whole run,
even though the field exists in the data. -/
theorem trailing_dot_key_aborts :
    New regFalse [("age", some ["abc"])] (.listMap [("age", ["numeric"])])
      [("age.", "msg")] = .error sliceOutOfRangeMsg ∧
    goContains '.' "age." = true ∧
    goSplitS '.' "age." = ["age", ""] :=
  ⟨rfl, rfl, rfl⟩

/-- C8 (amended): a dotted override key with a non-empty rule segment is
registered as a rule-specific override exactly when the field exists in
the data and the uppercased rule name is registered; an undotted key is
registered as the field-wide `"def"` override exactly when the field
exists; keys failing these conditions are silently ignored — except that
a dotted key with an empty rule segment aborts the run inside `ucfirst`. -/
theorem message_key_registration (v : Validator) (key item field rule : String)
    (rest : List String) :
    (goContains '.' key = true → goSplitS '.' key = field :: rule :: rest →
      rule ≠ "" →
      ∃ u, ucfirst rule = .ok u ∧
        parseMessage v [(key, item)] =
          .ok (if validateNames.contains u && (aGet? v.data field).isSome then
                 addMessage v field rule item
               else v)) ∧
    (goContains '.' key = false →
      parseMessage v [(key, item)] =
        .ok (if (aGet? v.data key).isSome then addMessage v key "" item else v)) ∧
    (rule ≠ "" →
      ∃ tbl, aGet? (addMessage v field rule item).customMsg field = some tbl ∧
        aGet? tbl rule = some item) ∧
    (∃ tbl, aGet? (addMessage v field "" item).customMsg field = some tbl ∧
      aGet? tbl "def" = some item) := by
  refine ⟨?_, ?_, ?_, ?_⟩
  · intro hdot hsplit hrule
    obtain ⟨c, cs, hcl⟩ : ∃ c cs, rule.toList = c :: cs := by
      cases hl : rule.toList with
      | nil => exact absurd hl (string_toList_ne_nil rule hrule)
      | cons c cs => exact ⟨c, cs, rfl⟩
    have hu : ucfirst rule = .ok (String.mk (Char.toUpper c :: cs)) := by
      unfold ucfirst
      rw [hcl]
    refine ⟨_, hu, ?_⟩
    unfold parseMessage
    rw [if_neg (by simp)]
    unfold msgLoop
    rw [if_pos hdot, hsplit]
    simp only [List.headD_cons, List.getD_cons_succ, List.getD_cons_zero]
    rw [hu]
    cases hc : validateNames.contains (String.mk (Char.toUpper c :: cs)) &&
        (aGet? v.data field).isSome with
    | true => simp only [hc]; rfl
    | false => simp only [hc]; rfl
  · intro hnd
    unfold parseMessage
    rw [if_neg (by simp)]
    unfold msgLoop
    rw [if_neg (by simp [hnd])]
    by_cases ho : (aGet? v.data key).isSome = true
    · rw [if_pos ho, if_pos ho]; rfl
    · rw [if_neg ho, if_neg ho]; rfl
  · intro hrule
    have hlen : rule.length > 0 := by
      have : rule.length = rule.toList.length := rfl
      rw [this]
      cases hl : rule.toList with
      | nil => exact absurd hl (string_toList_ne_nil rule hrule)
      | cons c cs => simp
    unfold addMessage
    rw [if_pos hlen]
    refine ⟨_, aGet?_cmInsert_self field rule item v.customMsg, ?_⟩
    cases aGet? v.customMsg field with
    | some tbl => simp only; exact aGet?_aSet_self tbl rule item
    | none => simp [aGet?]
  · unfold addMessage
    rw [if_neg (by simp)]
    refine ⟨_, aGet?_cmInsert_self field "def" item v.customMsg, ?_⟩
    cases aGet? v.customMsg field with
    | some tbl => simp only; exact aGet?_aSet_self tbl "def" item
    | none => simp [aGet?]

/-- C8 witness: spec scenario 5, registering `age.numeric`. -/
theorem message_key_registration_witness :
    ∃ u, ucfirst "numeric" = .ok u ∧
      parseMessage ⟨[("age", some ["abc"])], [("age", ["numeric"])], [], []⟩
        [("age.numeric", "bad number")] =
        .ok (if validateNames.contains u &&
              (aGet? (⟨[("age", some ["abc"])], [("age", ["numeric"])], [], []⟩ :
                Validator).data "age").isSome then
               addMessage ⟨[("age", some ["abc"])], [("age", ["numeric"])], [], []⟩
                 "age" "numeric" "bad number"
             else ⟨[("age", some ["abc"])], [("age", ["numeric"])], [], []⟩) :=
  (message_key_registration ⟨[("age", some ["abc"])], [("age", ["numeric"])], [], []⟩
    "age.numeric" "bad number" "age" "numeric" []).1 (by decide) (by decide) (by decide)

/-- C10 witness: a token list containing the empty token produced by a
trailing pipe never completes. -/
theorem nontotal_empty_token_witness :
    ("" ∈ ["min:1", ""]) ∧
    parseLoop regTrue "f" ["min:1", ""] ⟨[], [], [], []⟩ ["min:1", ""] ≠
      .ok ⟨[], [], [], []⟩ :=
  ⟨by decide, nontotal_empty_token.1 regTrue "f" ["min:1", ""] ⟨[], [], [], []⟩
    ["min:1", ""] (by decide) ⟨[], [], [], []⟩⟩

end validator
